import Mathlib

/-!
Verification development for two filesystem utility scripts:
`rename_files.py` (bulk extension renamer) and `append_text.py`
(text-file combiner).  The scripts are embedded shallowly: filenames are
`List Char`, the directory is a list of names, the output file is the
list of characters written so far, and fallible operations return
`Option`.  Write errors on the combiner output are modelled by a
predicate on the index of the write call.
-/

set_option maxHeartbeats 1000000
set_option maxRecDepth 100000

namespace WorkScripts

/-- Characters of a string literal, used to state concrete examples. -/
def ls (s : String) : List Char := s.toList

/-! ## Renamer: the filename pattern

`rename_files.py` matches each filename against the Python regex
`^(.+)\.OLD(?:\.?(\d+))?$` compiled with `re.IGNORECASE`, where `OLD` is
the escaped old extension.  Python semantics embedded here:

* `.` in `(.+)` matches any character except a newline;
* the extension letters are compared case-insensitively;
* `\d+` is one or more digit characters;
* `$` matches at the very end of the string, or just before a single
  newline that ends the string.
-/

/-- Case-insensitive equality of character lists (`re.IGNORECASE` on an
escaped literal). -/
def lowerEq (a b : List Char) : Bool := a.map Char.toLower == b.map Char.toLower

/-- Nonempty all-digit character list (`\d+`). -/
def isDigits (l : List Char) : Bool := !l.isEmpty && l.all (fun c => c.isDigit)

/-- Drop one trailing newline if present: the positions where Python
`$` can match are exactly the end of `stripNl l`. -/
def stripNl (l : List Char) : List Char :=
  if l.getLast? = some '\n' then l.dropLast else l

/-- Match an optional dot and a digit group against the tail with its
trailing newline already stripped. -/
def numPartCore : List Char → Option (Option (List Char))
  | [] => some none
  | c :: rest =>
      if c = '.' then if isDigits rest then some (some rest) else none
      else if isDigits (c :: rest) then some (some (c :: rest)) else none

/-- Match the tail `(?:\.?(\d+))?$` against the characters that follow
the extension.  Returns `some number?` on a match. -/
def numPart (t : List Char) : Option (Option (List Char)) :=
  numPartCore (stripNl t)

/-- Match `\.OLD(?:\.?(\d+))?$` against a suffix of the filename. -/
def trySuffix (oldExt suf : List Char) : Option (Option (List Char)) :=
  match suf with
  | [] => none
  | c :: rest =>
      if c = '.' && lowerEq (rest.take oldExt.length) oldExt then
        numPart (rest.drop oldExt.length)
      else none

/-- Backtracking matcher for `^(.+)\.OLD(?:\.?(\d+))?$`: the base group
is greedy, so the recursive call (longer base) is preferred over
matching the extension suffix at the current position.  A newline can
never be part of the base group. -/
def matchAux (oldExt : List Char) : List Char → List Char → Option (List Char × Option (List Char))
  | _, [] => none
  | base, c :: rest =>
      if c = '\n' then none
      else
        match matchAux oldExt (base ++ [c]) rest with
        | some r => some r
        | none =>
            match trySuffix oldExt rest with
            | some n => some (base ++ [c], n)
            | none => none

/-- Full-pattern match of a filename: `some (base, number?)` exactly
when `pattern.match(name)` succeeds in `rename_files.py`. -/
def matchName (oldExt name : List Char) : Option (List Char × Option (List Char)) :=
  matchAux oldExt [] name

/-- New filename built from the captured groups: base, optional
number, new extension, separated by dots. -/
def newName (base : List Char) (number : Option (List Char)) (newExt : List Char) : List Char :=
  match number with
  | some d => base ++ '.' :: d ++ '.' :: newExt
  | none => base ++ '.' :: newExt

/-- The target name the renamer computes for a filename, `none` when the
pattern does not match. -/
def computeNewName (oldExt newExt name : List Char) : Option (List Char) :=
  (matchName oldExt name).map (fun r => newName r.1 r.2 newExt)

/-! ## Renamer: collision resolution and the rename loop

The directory is a list of filenames (direct children that are regular
files).  `Path.exists` is list membership; `Path.rename` removes the
old name and adds the new one.  The unbounded `while True` collision
loop is given explicit fuel and returns `none` when the fuel runs out,
which never happens on a finite directory with enough fuel. -/

/-- Python `str.lstrip(".")`: drop leading dots of an extension token. -/
def lstripDots : List Char → List Char
  | [] => []
  | c :: rest => if c = '.' then lstripDots rest else c :: rest

/-- Split a filename around its last dot (`name.rfind(".")`). -/
def splitOnLastDot : List Char → Option (List Char × List Char)
  | [] => none
  | c :: rest =>
      match splitOnLastDot rest with
      | some r => some (c :: r.1, r.2)
      | none => if c = '.' then some ([], rest) else none

/-- Python `Path.stem` and `Path.suffix` of a single path component:
the suffix is the part from the last dot on, empty when the last dot is
the first character or the final character. -/
def stemAndSuffix (name : List Char) : List Char × List Char :=
  match splitOnLastDot name with
  | none => (name, [])
  | some r => if r.1.isEmpty || r.2.isEmpty then (name, []) else (r.1, '.' :: r.2)

/-- Decimal rendering of a natural number. -/
def natDigits (n : Nat) : List Char := Nat.toDigits 10 n

/-- Candidate name stem, underscore, index, suffix tried by the
collision loop. -/
def candName (stem suffix : List Char) (i : Nat) : List Char :=
  stem ++ '_' :: natDigits i ++ suffix

/-- The `while True` loop of `rename_files`: starting from index `i`,
return the first candidate that does not exist, with explicit fuel. -/
def findFree (ex : List Char → Bool) (stem suffix : List Char) : Nat → Nat → Option (List Char)
  | _, 0 => none
  | i, fuel + 1 =>
      if ex (candName stem suffix i) then findFree ex stem suffix (i + 1) fuel
      else some (candName stem suffix i)

/-- Collision resolution: keep the computed target if it does not
exist, otherwise append `_<n>` to its stem, n = 1, 2, ... -/
def resolveTarget (ex : List Char → Bool) (fuel : Nat) (name : List Char) : Option (List Char) :=
  if ex name then findFree ex (stemAndSuffix name).1 (stemAndSuffix name).2 1 fuel
  else some name

/-- Lexicographic (codepoint) order on names: Python string `<=`,
the order `sorted(folder.iterdir())` uses for same-directory paths. -/
def lexLe : List Char → List Char → Bool
  | [], _ => true
  | _ :: _, [] => false
  | a :: as, b :: bs => if a < b then true else if b < a then false else lexLe as bs

/-- The sorted snapshot of the directory taken by the renamer loop. -/
def sortNames (l : List (List Char)) : List (List Char) :=
  List.insertionSort (fun a b => lexLe a b = true) l

/-- One iteration of the renamer loop on filename `name`: skip names
that no longer exist (`is_file`) or do not match; otherwise resolve the
target against the current directory and rename unless `dryRun`. -/
def renameStep (oldExt newExt : List Char) (dryRun : Bool) (fuel : Nat)
    (fs : List (List Char)) (count : Nat) (name : List Char) :
    Option (List (List Char) × Nat) :=
  if fs.contains name = false then some (fs, count)
  else
    match matchName oldExt name with
    | none => some (fs, count)
    | some r =>
        match resolveTarget (fun s => fs.contains s) fuel (newName r.1 r.2 newExt) with
        | none => none
        | some target =>
            if dryRun then some (fs, count + 1)
            else some (fs.erase name ++ [target], count + 1)

/-- The renamer loop over the sorted snapshot, threading the live
directory contents and the counter. -/
def renameLoop (oldExt newExt : List Char) (dryRun : Bool) (fuel : Nat) :
    List (List Char) → List (List Char) → Nat → Option (List (List Char) × Nat)
  | [], fs, count => some (fs, count)
  | n :: ns, fs, count =>
      match renameStep oldExt newExt dryRun fuel fs count n with
      | none => none
      | some st => renameLoop oldExt newExt dryRun fuel ns st.1 st.2

/-- `rename_files(folder, old_ext, new_ext, dry_run)` on a directory
`fs`: strips leading dots of both tokens, iterates the sorted snapshot,
returns the final directory and the count of files renamed (or that
would be renamed under dry run). -/
def renameFiles (oldExt newExt : List Char) (dryRun : Bool) (fuel : Nat)
    (fs : List (List Char)) : Option (List (List Char) × Nat) :=
  renameLoop (lstripDots oldExt) (lstripDots newExt) dryRun fuel (sortNames fs) fs 0

/-- Whether a filename matches the renamer pattern. -/
def matchesOld (oldExt name : List Char) : Bool := (matchName oldExt name).isSome

/-! ## Combiner: data model

A source file carries its name, its path relative to the source
directory, its byte size, its creation timestamp and its decoded
content; `content = none` models a file whose `open`/`read`/`stat`
raises (the per-file error path).  Decoding itself replaces malformed
byte sequences and is total, so decoded content is always a string. -/

structure SrcFile where
  name : List Char
  relpath : List Char
  size : Nat
  ctime : Nat
  content : Option (List Char)
deriving DecidableEq

/-- Number of newline characters: `content.count("\n")`. -/
def countNl (l : List Char) : Nat := (l.filter (fun c => c = '\n')).length

/-- The 80-character rule `"=" * 80`. -/
def eqRule : List Char := List.replicate 80 '='

/-- Insert thousands separators into a reversed digit list. -/
def commaRev : List Char → List Char
  | a :: b :: c :: d :: rest => a :: b :: c :: ',' :: commaRev (d :: rest)
  | l => l

/-- Python thousands-separator number formatting, as used for the size
and line-count fields of a separator block. -/
def withCommas (n : Nat) : List Char := (commaRev (natDigits n).reverse).reverse

/-- Display of the creation timestamp (`strftime` of `st_ctime`),
modelled as the decimal rendering of the timestamp. -/
def fmtTimestamp (t : Nat) : List Char := natDigits t

/-- The per-file separator block written before a file with `lines`
newline characters in its content. -/
def sepBlock (f : SrcFile) (lines : Nat) : List Char :=
  ls "\n" ++ eqRule ++ ls "\nFILE: " ++ f.name ++ ls "\nPath: " ++ f.relpath ++
    ls "\nSize: " ++ withCommas f.size ++ ls " bytes\nLines: " ++ withCommas lines ++
    ls "\nCreated: " ++ fmtTimestamp f.ctime ++ ls "\n" ++ eqRule ++ ls "\n\n"

/-- The header block of the combined file. -/
def headerBlock (nowStr srcDirStr encStr : List Char) (nfiles : Nat) (sortByDate : Bool) : List Char :=
  ls "Combined file created: " ++ nowStr ++ ls "\nSource directory: " ++ srcDirStr ++
    ls "\nTotal files: " ++ natDigits nfiles ++
    ls "\nSorted by: " ++ (if sortByDate then ls "creation date" else ls "name") ++
    ls "\nEncoding: " ++ encStr ++ ls "\n" ++ eqRule ++ ls "\n\n"

/-- The footer block: totals as returned to the caller.  The final
rule is 81 characters long: the source prepends one extra `=` to the
80-character rule. -/
def footerBlock (p t : Nat) : List Char :=
  ls "\n" ++ eqRule ++ ls "\nEnd of combined file\nFiles processed: " ++ natDigits p ++
    ls "\nTotal lines: " ++ natDigits t ++ ls "\n=" ++ eqRule ++ ls "\n"

/-- The trailing-newline pad: one newline when the content is nonempty
and does not already end with a newline. -/
def padOf (c : List Char) : List Char :=
  if !c.isEmpty && !(c.getLast? == some '\n') then ['\n'] else []

/-- Result of one `outfile.write` call: whether it raised, the next
call index, the output written so far. -/
structure WriteRes where
  ok : Bool
  idx : Nat
  out : List Char

/-- One `outfile.write(s)` call: the call with index `idx` raises
exactly when `wfail idx`; a raising call appends nothing. -/
def writeCall (wfail : Nat → Bool) (idx : Nat) (s out : List Char) : WriteRes :=
  if wfail idx then ⟨false, idx + 1, out⟩ else ⟨true, idx + 1, out ++ s⟩

/-- State threaded through the combiner loop. -/
structure LoopSt where
  idx : Nat
  out : List Char
  processed : Nat
  totalLines : Nat
  raised : Nat

/-- One iteration of the combiner loop on file `f`, mirroring the inner
`try` block: a read error (`content = none`) writes nothing; otherwise
the separator, the content and the optional pad are written in order,
and any write that raises is caught by the inner handler, so the file
is not counted and the loop continues. -/
def processOne (wfail : Nat → Bool) (st : LoopSt) (f : SrcFile) : LoopSt :=
  match f.content with
  | none => st
  | some c =>
      let lines := countNl c
      let w1 := writeCall wfail st.idx (sepBlock f lines) st.out
      if w1.ok = false then ⟨w1.idx, w1.out, st.processed, st.totalLines, st.raised + 1⟩
      else
        let w2 := writeCall wfail w1.idx c w1.out
        if w2.ok = false then ⟨w2.idx, w2.out, st.processed, st.totalLines, st.raised + 1⟩
        else if (padOf c).isEmpty then
          ⟨w2.idx, w2.out, st.processed + 1, st.totalLines + lines, st.raised⟩
        else
          let w3 := writeCall wfail w2.idx (padOf c) w2.out
          if w3.ok = false then ⟨w3.idx, w3.out, st.processed, st.totalLines, st.raised + 1⟩
          else ⟨w3.idx, w3.out, st.processed + 1, st.totalLines + lines, st.raised⟩

/-- The combiner loop over the ordered file list. -/
def combineLoop (wfail : Nat → Bool) : List SrcFile → LoopSt → LoopSt
  | [], st => st
  | f :: rest, st => combineLoop wfail rest (processOne wfail st f)

/-- Strict lexicographic (codepoint) order on character lists: Python
string `<`, used to compare two path components. -/
def lexLt : List Char → List Char → Bool
  | [], [] => false
  | [], _ :: _ => true
  | _ :: _, [] => false
  | a :: as, b :: bs => if a < b then true else if b < a then false else lexLt as bs

/-- The slash-separated components of a relative path: Python
`Path.parts` of a path without a leading slash. -/
def splitPath : List Char → List (List Char)
  | [] => [[]]
  | c :: rest =>
      if c = '/' then [] :: splitPath rest
      else
        match splitPath rest with
        | [] => [[c]]
        | p :: ps => (c :: p) :: ps

/-- Python tuple comparison of path parts: componentwise by string
order, a missing component ranking first (`a` before `a/b` before
`a.c`). -/
def partsLe : List (List Char) → List (List Char) → Bool
  | [], _ => true
  | _ :: _, [] => false
  | a :: as, b :: bs =>
      if lexLt a b then true else if lexLt b a then false else partsLe as bs

/-- Sort key used with `--sort-by-name`: Python compares `Path`
objects by their tuple of parts, componentwise by string order, so two
paths are ordered by the parts of their paths relative to the common
source directory. -/
def byName (a b : SrcFile) : Prop :=
  partsLe (splitPath a.relpath) (splitPath b.relpath) = true

/-- Sort key used by default: `st_ctime` ascending. -/
def byDate (a b : SrcFile) : Prop := a.ctime ≤ b.ctime

instance : DecidableRel byName := fun a b =>
  inferInstanceAs (Decidable (partsLe (splitPath a.relpath) (splitPath b.relpath) = true))

instance : DecidableRel byDate := fun a b =>
  inferInstanceAs (Decidable (a.ctime ≤ b.ctime))

/-- `files.sort(...)`: stable sort by creation date or by path. -/
def sortFiles (sortByDate : Bool) (files : List SrcFile) : List SrcFile :=
  if sortByDate then List.insertionSort byDate files else List.insertionSort byName files

/-- Environment of a combiner run: directory validity, whether opening
the output raises, the display strings of the header, and which write
calls raise. -/
structure CombineEnv where
  dirExists : Bool
  isDir : Bool
  openFail : Bool
  nowStr : List Char
  srcDirStr : List Char
  encStr : List Char
  wfail : Nat → Bool

/-- Result of a combiner run: the tuple returned to the caller plus the
characters written to the output file and the number of write calls
that raised but were caught by the per-file handler. -/
structure CombineOutcome where
  processed : Nat
  totalLines : Nat
  success : Bool
  output : List Char
  raised : Nat
deriving DecidableEq

/-- The footer write after the loop: an uncaught raise returns the
loop counts with `success = false`; otherwise the run succeeds. -/
def combineFinish (wfail : Nat → Bool) (st : LoopSt) : CombineOutcome :=
  if (writeCall wfail st.idx (footerBlock st.processed st.totalLines) st.out).ok = false then
    ⟨st.processed, st.totalLines, false, st.out, st.raised⟩
  else
    ⟨st.processed, st.totalLines, true,
      (writeCall wfail st.idx (footerBlock st.processed st.totalLines) st.out).out, st.raised⟩

/-- The body of the outer `try`: write the header (call index 0), run
the loop over the ordered files, write the footer.  A raise of the
header write is uncaught and returns zero counts. -/
def combineOpened (wfail : Nat → Bool) (hdr : List Char) (files : List SrcFile) : CombineOutcome :=
  if (writeCall wfail 0 hdr []).ok = false then
    ⟨0, 0, false, (writeCall wfail 0 hdr []).out, 0⟩
  else
    combineFinish wfail
      (combineLoop wfail files
        ⟨(writeCall wfail 0 hdr []).idx, (writeCall wfail 0 hdr []).out, 0, 0, 0⟩)

/-- `combine_files(source_dir, output_file, ...)` on the already
pattern-filtered list of candidate files `files0`:  validate the
directory, sort, fail on an empty match list, fail on an open error,
then write header, file blocks, and footer. -/
def combineFiles (env : CombineEnv) (sortByDate : Bool) (files0 : List SrcFile) : CombineOutcome :=
  if env.dirExists = false then ⟨0, 0, false, [], 0⟩
  else if env.isDir = false then ⟨0, 0, false, [], 0⟩
  else if (sortFiles sortByDate files0).isEmpty = true then ⟨0, 0, false, [], 0⟩
  else if env.openFail = true then ⟨0, 0, false, [], 0⟩
  else
    combineOpened env.wfail
      (headerBlock env.nowStr env.srcDirStr env.encStr (sortFiles sortByDate files0).length
        sortByDate)
      (sortFiles sortByDate files0)

/-- Exit code of `main`: 0 on success, 1 otherwise. -/
def mainExit (o : CombineOutcome) : Nat := if o.success then 0 else 1

/-- Everything written for one file when no write raises. -/
def fileChunk (f : SrcFile) : List Char :=
  match f.content with
  | none => []
  | some c => sepBlock f (countNl c) ++ c ++ padOf c

/-- Concatenation of the per-file chunks in list order. -/
def chunksOf (l : List SrcFile) : List Char := (l.map fileChunk).flatten

/-- Files whose read succeeds. -/
def okCount (l : List SrcFile) : Nat := (l.filter (fun f => f.content.isSome)).length

/-- Files whose read raises. -/
def errCount (l : List SrcFile) : Nat := (l.filter (fun f => f.content.isNone)).length

/-- Newline count contributed by one file. -/
def fileLines (f : SrcFile) : Nat :=
  match f.content with
  | none => 0
  | some c => countNl c

/-- Number of write calls one file performs when none raises. -/
def fileWrites (f : SrcFile) : Nat :=
  match f.content with
  | none => 0
  | some c => if (padOf c).isEmpty then 2 else 3

/-- Total newline count over the successfully read files. -/
def linesSum (l : List SrcFile) : Nat := (l.map fileLines).sum

/-- Total number of write calls of the loop when none raises. -/
def writeCount (l : List SrcFile) : Nat := (l.map fileWrites).sum

/-- The files whose separator blocks appear in the output, in output
order. -/
def blockFiles (sortByDate : Bool) (files : List SrcFile) : List SrcFile :=
  (sortFiles sortByDate files).filter (fun f => f.content.isSome)

/-- Boolean test that `suf` is a suffix of `l`. -/
def endsWith (l suf : List Char) : Bool := l.drop (l.length - suf.length) == suf

/-! ## Concrete sample runs used by witnesses and counterexamples -/

/-- Environment of a run with a valid directory and no failures. -/
def sampleEnv : CombineEnv :=
  ⟨true, true, false, ls "NOW", ls "SRC", ls "utf-8", fun _ => false⟩

/-- Environment whose write call 3 — the footer write after one
two-write file — raises. -/
def envFailFooter : CombineEnv :=
  ⟨true, true, false, ls "NOW", ls "SRC", ls "utf-8", fun i => i == 3⟩

/-- Environment whose write call 1 — the first separator write —
raises. -/
def envFailSep : CombineEnv :=
  ⟨true, true, false, ls "NOW", ls "SRC", ls "utf-8", fun i => i == 1⟩

/-- Environment whose header write (call 0) raises. -/
def envFailHeader : CombineEnv :=
  ⟨true, true, false, ls "NOW", ls "SRC", ls "utf-8", fun i => i == 0⟩

/-- Environment whose source directory does not exist. -/
def envNoDir : CombineEnv :=
  ⟨false, true, false, ls "NOW", ls "SRC", ls "utf-8", fun _ => false⟩

/-- A readable file whose content already ends with a newline. -/
def sampleA : SrcFile := ⟨ls "a.txt", ls "a.txt", 2, 10, some (ls "x\n")⟩

/-- A readable file whose content lacks a final newline. -/
def sampleB : SrcFile := ⟨ls "b.txt", ls "b.txt", 1, 5, some (ls "y")⟩

/-- A file whose read raises. -/
def sampleBad : SrcFile := ⟨ls "c.txt", ls "c.txt", 1, 7, none⟩

/-- A file in subdirectory `a` whose bare name sorts late. -/
def pathZ : SrcFile := ⟨ls "z.txt", ls "a/z.txt", 2, 1, some (ls "z\n")⟩

/-- A file in subdirectory `b` whose bare name sorts early. -/
def pathA : SrcFile := ⟨ls "a.txt", ls "b/a.txt", 2, 2, some (ls "a\n")⟩

/-! ## Lemmas: the renamer pattern matcher -/

/-- Soundness of the matcher: a successful match splits the input into
a nonempty newline-free base and a suffix accepted by `trySuffix`. -/
theorem matchAux_sound (oldExt : List Char) :
    ∀ (l base b : List Char) (n : Option (List Char)),
      matchAux oldExt base l = some (b, n) →
      ∃ p s, l = p ++ s ∧ p ≠ [] ∧ (∀ c ∈ p, c ≠ '\n') ∧ b = base ++ p ∧
        trySuffix oldExt s = some n := by
  intro l
  induction l with
  | nil => intro base b n h; simp [matchAux] at h
  | cons c rest ih =>
    intro base b n h
    simp only [matchAux] at h
    by_cases hc : c = '\n'
    · simp [hc] at h
    rw [if_neg hc] at h
    cases h1 : matchAux oldExt (base ++ [c]) rest with
    | some r =>
      simp only [h1] at h
      obtain rfl : r = (b, n) := by injection h
      obtain ⟨p, s, hl, hp, hnl, hb, hts⟩ := ih (base ++ [c]) b n h1
      refine ⟨c :: p, s, by simp [hl], by simp, ?_, ?_, hts⟩
      · intro x hx
        rcases List.mem_cons.mp hx with rfl | hx
        · exact hc
        · exact hnl x hx
      · rw [hb]; simp
    | none =>
      simp only [h1] at h
      cases h2 : trySuffix oldExt rest with
      | none => simp [h2] at h
      | some m =>
        simp only [h2] at h
        have hbn : base ++ [c] = b ∧ m = n := by
          have := h; simp only [Option.some.injEq, Prod.mk.injEq] at this; exact this
        refine ⟨[c], rest, rfl, by simp, ?_, hbn.1.symm, by rw [h2, hbn.2]⟩
        intro x hx
        rcases List.mem_cons.mp hx with rfl | hx
        · exact hc
        · simp at hx

/-- Completeness of the matcher: whenever some nonempty newline-free
split admits a suffix match, the matcher succeeds. -/
theorem matchAux_complete (oldExt : List Char) :
    ∀ (p s base : List Char) (n : Option (List Char)),
      p ≠ [] → (∀ c ∈ p, c ≠ '\n') → trySuffix oldExt s = some n →
      (matchAux oldExt base (p ++ s)).isSome = true := by
  intro p
  induction p with
  | nil => intro s base n hp; exact absurd rfl hp
  | cons c p2 ih =>
    intro s base n _ hnl hts
    have hc : ¬ c = '\n' := hnl c (by simp)
    simp only [List.cons_append, matchAux, if_neg hc]
    cases h1 : matchAux oldExt (base ++ [c]) (p2 ++ s) with
    | some r => simp
    | none =>
      by_cases hp2 : p2 = []
      · subst hp2
        simp only [List.nil_append] at h1
        simp [h1, hts]
      · have := ih s (base ++ [c]) n hp2 (fun x hx => hnl x (by simp [hx])) hts
        rw [h1] at this
        simp at this

/-- Greediness of the matcher: the captured base is the longest
newline-free base admitting a suffix match, so every strictly longer
split fails. -/
theorem matchAux_greedy (oldExt : List Char) :
    ∀ (l base b : List Char) (n : Option (List Char)),
      matchAux oldExt base l = some (b, n) →
      ∀ p s, l = p ++ s → b.length < base.length + p.length →
        (∀ c ∈ p, c ≠ '\n') → trySuffix oldExt s = none := by
  intro l
  induction l with
  | nil => intro base b n h; simp [matchAux] at h
  | cons c rest ih =>
    intro base b n h p s hl hlen hnl
    simp only [matchAux] at h
    by_cases hc : c = '\n'
    · simp [hc] at h
    rw [if_neg hc] at h
    cases h1 : matchAux oldExt (base ++ [c]) rest with
    | some r =>
      simp only [h1] at h
      obtain rfl : r = (b, n) := by injection h
      obtain ⟨p0, s0, _, hp0, _, hb, _⟩ := matchAux_sound oldExt rest (base ++ [c]) b n h1
      cases p with
      | nil =>
        exfalso
        rw [hb] at hlen
        simp [List.length_append] at hlen
      | cons c2 p2 =>
        rw [List.cons_append] at hl
        injection hl with hceq hrest
        subst hceq
        refine ih (base ++ [c]) b n h1 p2 s hrest ?_ (fun x hx => hnl x (by simp [hx]))
        simp only [List.length_append, List.length_cons] at hlen ⊢
        omega
    | none =>
      simp only [h1] at h
      cases h2 : trySuffix oldExt rest with
      | none => simp [h2] at h
      | some m =>
        simp only [h2] at h
        have hb : base ++ [c] = b := by
          have := h
          simp only [Option.some.injEq, Prod.mk.injEq] at this
          exact this.1
        have hblen : b.length = base.length + 1 := by rw [← hb]; simp
        cases p with
        | nil => exfalso; simp at hl hlen; omega
        | cons c2 p2 =>
          obtain ⟨rfl, hrest⟩ : c2 = c ∧ rest = p2 ++ s := by
            rw [List.cons_append] at hl
            exact ⟨(List.cons.injEq _ _ _ _ ▸ hl).1.symm, (List.cons.injEq _ _ _ _ ▸ hl).2⟩
          by_cases hp2 : p2 = []
          · exfalso
            subst hp2
            simp at hlen
            omega
          · cases h3 : trySuffix oldExt s with
            | none => rfl
            | some m2 =>
              exfalso
              have hcomp := matchAux_complete oldExt p2 s (base ++ [c2]) m2 hp2
                (fun x hx => hnl x (by simp [hx])) h3
              rw [← hrest] at hcomp
              rw [h1] at hcomp
              simp at hcomp

/-- Stripping the optional trailing newline: the original list is the
stripped list, possibly followed by one newline. -/
theorem stripNl_eq (t : List Char) : t = stripNl t ∨ t = stripNl t ++ ['\n'] := by
  unfold stripNl
  split
  · next h =>
    right
    exact (List.dropLast_append_getLast? '\n' h).symm
  · left; rfl

/-- Characterization of the accepted tails after the extension: either
nothing (up to one trailing newline), or a nonempty digit group with an
optional leading dot (up to one trailing newline). -/
theorem numPart_spec (t : List Char) (n : Option (List Char)) (h : numPart t = some n) :
    ((t = [] ∨ t = ['\n']) ∧ n = none) ∨
    ∃ d, isDigits d = true ∧ n = some d ∧
      (t = d ∨ t = d ++ ['\n'] ∨ t = '.' :: d ∨ t = '.' :: d ++ ['\n']) := by
  have hstrip := stripNl_eq t
  unfold numPart at h
  cases hs : stripNl t with
  | nil =>
    rw [hs] at h hstrip
    simp only [numPartCore, Option.some.injEq] at h
    left
    exact ⟨by simpa using hstrip, h.symm⟩
  | cons c rest =>
    rw [hs] at h hstrip
    simp only [numPartCore] at h
    by_cases hc : c = '.'
    · rw [if_pos hc] at h
      by_cases hd : isDigits rest = true
      · rw [if_pos hd] at h
        simp only [Option.some.injEq] at h
        right
        subst hc
        exact ⟨rest, hd, h.symm, by
          rcases hstrip with h1 | h1
          · exact Or.inr (Or.inr (Or.inl h1))
          · exact Or.inr (Or.inr (Or.inr (by simpa using h1)))⟩
      · rw [if_neg hd] at h; exact absurd h (by simp)
    · rw [if_neg hc] at h
      by_cases hd : isDigits (c :: rest) = true
      · rw [if_pos hd] at h
        simp only [Option.some.injEq] at h
        right
        exact ⟨c :: rest, hd, h.symm, by
          rcases hstrip with h1 | h1
          · exact Or.inl h1
          · exact Or.inr (Or.inl h1)⟩
      · rw [if_neg hd] at h; exact absurd h (by simp)

/-- Full characterization of a successful filename match: the name is
a nonempty newline-free base, a dot, extension letters equal to the old
extension up to case, and an accepted tail. -/
theorem matchName_spec (oldExt name b : List Char) (n : Option (List Char))
    (h : matchName oldExt name = some (b, n)) :
    b ≠ [] ∧ (∀ c ∈ b, c ≠ '\n') ∧
    ∃ ext t, name = b ++ '.' :: (ext ++ t) ∧ ext.length = oldExt.length ∧
      lowerEq ext oldExt = true ∧ numPart t = some n := by
  obtain ⟨p, s, hl, hp, hnl, hb, hts⟩ := matchAux_sound oldExt name [] b n h
  simp only [List.nil_append] at hb
  subst hb
  refine ⟨hp, hnl, ?_⟩
  cases s with
  | nil => exact absurd hts (by simp [trySuffix])
  | cons c rest =>
    simp only [trySuffix] at hts
    by_cases hcond : (decide (c = '.') && lowerEq (rest.take oldExt.length) oldExt) = true
    · rw [if_pos hcond] at hts
      rw [Bool.and_eq_true, decide_eq_true_eq] at hcond
      obtain ⟨hdot, hext⟩ := hcond
      subst hdot
      refine ⟨rest.take oldExt.length, rest.drop oldExt.length, ?_, ?_, hext, hts⟩
      · rw [hl, List.take_append_drop]
      · have : (rest.take oldExt.length).length = min oldExt.length rest.length :=
          List.length_take _ _
        have hlen : (rest.take oldExt.length).length = oldExt.length := by
          have := congrArg List.length (show (rest.take oldExt.length).map Char.toLower
            = oldExt.map Char.toLower by simpa [lowerEq] using hext)
          simpa using this
        exact hlen
    · rw [if_neg hcond] at hts
      exact absurd hts (by simp)

/-! ## Claim C1 -/

/-- Claim C1 as stated is false: the match is not anchored to the full
filename end.  Python `$` also matches just before one trailing
newline, so the file named `report.log` followed by a newline character
is matched and renamed to `report.txt`, although no tail `t` of the
three advertised forms (empty, digits, dot-digits) decomposes it. -/
theorem C1_counterexample :
    matchName (ls "log") (ls "report.log\n") = some (ls "report", none) ∧
    computeNewName (ls "log") (ls "txt") (ls "report.log\n") = some (ls "report.txt") ∧
    (∀ t : List Char, ls "report.log\n" = ls "report" ++ '.' :: (ls "log" ++ t) →
      ¬(t = [] ∨ ∃ d, isDigits d = true ∧ (t = d ∨ t = '.' :: d))) := by
  refine ⟨by decide, by decide, ?_⟩
  intro t ht
  have hpre : ls "report.log\n" = (ls "report" ++ '.' :: ls "log") ++ ['\n'] := by decide
  have ht2 : t = ['\n'] := by
    rw [hpre] at ht
    have : (ls "report" ++ '.' :: ls "log") ++ ['\n'] =
        (ls "report" ++ '.' :: ls "log") ++ t := by
      rw [ht]; simp
    exact (List.append_cancel_left this).symm
  subst ht2
  rintro (h1 | ⟨d, hd, h2 | h3⟩)
  · simp at h1
  · rw [← h2] at hd
    exact absurd hd (by decide)
  · have : '\n' = '.' := by injection h3
    exact absurd this (by decide)

/-- Claim C1 (amended): the three advertised example renames hold, and
for every successful match the name decomposes as a nonempty
newline-free base, a dot, extension letters equal to the old extension
up to case, and a tail that is empty or a digit group with optional
leading dot — except that one extra trailing newline is tolerated at
the very end of the filename.  The computed new name is the base plus
the preserved digit group plus the new extension, and the captured
base is the longest (greedy) newline-free base admitting a match. -/
theorem C1_renamer_mapping :
    computeNewName (ls "log") (ls "txt") (ls "report.log") = some (ls "report.txt") ∧
    computeNewName (ls "log") (ls "txt") (ls "report.log2") = some (ls "report.2.txt") ∧
    computeNewName (ls "log") (ls "txt") (ls "report.log.2") = some (ls "report.2.txt") ∧
    ∀ oldExt newExt name b n, matchName oldExt name = some (b, n) →
      (b ≠ [] ∧ (∀ c ∈ b, c ≠ '\n') ∧
       ∃ ext t, name = b ++ '.' :: (ext ++ t) ∧ ext.length = oldExt.length ∧
         lowerEq ext oldExt = true ∧
         (((t = [] ∨ t = ['\n']) ∧ n = none) ∨
          ∃ d, isDigits d = true ∧ n = some d ∧
            (t = d ∨ t = d ++ ['\n'] ∨ t = '.' :: d ∨ t = '.' :: d ++ ['\n']))) ∧
      computeNewName oldExt newExt name = some (newName b n newExt) ∧
      (n = none → computeNewName oldExt newExt name = some (b ++ '.' :: newExt)) ∧
      (∀ d, n = some d → computeNewName oldExt newExt name = some (b ++ '.' :: d ++ '.' :: newExt)) ∧
      (∀ p s, name = p ++ s → b.length < p.length → (∀ c ∈ p, c ≠ '\n') →
        trySuffix oldExt s = none) := by
  refine ⟨by decide, by decide, by decide, ?_⟩
  intro oldExt newExt name b n h
  obtain ⟨hb, hnl, ext, t, hname, hlen, hci, hnp⟩ := matchName_spec oldExt name b n h
  refine ⟨⟨hb, hnl, ext, t, hname, hlen, hci, numPart_spec t n hnp⟩, ?_, ?_, ?_, ?_⟩
  · simp [computeNewName, h]
  · intro hn; subst hn; simp [computeNewName, h, newName]
  · intro d hn; subst hn; simp [computeNewName, h, newName]
  · intro p s hps hlt hpnl
    exact matchAux_greedy oldExt name [] b n h p s hps (by simpa using hlt) hpnl

/-- Witness for C1 at the concrete input `report.log2`. -/
theorem C1_renamer_mapping_witness :
    matchName (ls "log") (ls "report.log2") = some (ls "report", some (ls "2")) ∧
    computeNewName (ls "log") (ls "txt") (ls "report.log2") =
      some (newName (ls "report") (some (ls "2")) (ls "txt")) := by
  refine ⟨by decide, ?_⟩
  exact (C1_renamer_mapping.2.2.2 (ls "log") (ls "txt") (ls "report.log2")
    (ls "report") (some (ls "2")) (by decide)).2.1

/-! ## Claim C10 -/

/-- Claim C10: a filename in which nothing precedes the matched
extension is never matched: the three dotfile examples fail to match,
and in general every captured base is nonempty. -/
theorem C10_dotfiles :
    matchName (ls "log") (ls ".log") = none ∧
    matchName (ls "log") (ls ".log2") = none ∧
    matchName (ls "log") (ls ".log.2") = none ∧
    ∀ oldExt name b n, matchName oldExt name = some (b, n) → b ≠ [] := by
  refine ⟨by decide, by decide, by decide, ?_⟩
  intro oldExt name b n h
  exact (matchName_spec oldExt name b n h).1

/-- Witness for C10 at the concrete input `a.log`. -/
theorem C10_dotfiles_witness :
    matchName (ls "log") (ls "a.log") = some (ls "a", none) ∧ ls "a" ≠ [] :=
  ⟨by decide, C10_dotfiles.2.2.2 (ls "log") (ls "a.log") (ls "a") none (by decide)⟩

/-! ## Claim C2 -/

/-- Characterization of the collision loop: a returned candidate does
not exist, is built from index `j` at least the starting index, and
every earlier candidate exists. -/
theorem findFree_spec (ex : List Char → Bool) (stem suffix : List Char) :
    ∀ (fuel i : Nat) (res : List Char),
      findFree ex stem suffix i fuel = some res →
      ex res = false ∧ ∃ j, i ≤ j ∧ res = candName stem suffix j ∧
        ∀ k, i ≤ k → k < j → ex (candName stem suffix k) = true := by
  intro fuel
  induction fuel with
  | zero => intro i res h; simp [findFree] at h
  | succ fuel ih =>
    intro i res h
    simp only [findFree] at h
    by_cases hex : ex (candName stem suffix i) = true
    · rw [if_pos hex] at h
      obtain ⟨hres, j, hij, hj, hall⟩ := ih (i + 1) res h
      refine ⟨hres, j, by omega, hj, fun k hk1 hk2 => ?_⟩
      rcases Nat.eq_or_lt_of_le hk1 with rfl | hk
      · exact hex
      · exact hall k hk hk2
    · rw [if_neg hex] at h
      simp only [Option.some.injEq] at h
      subst h
      exact ⟨by simpa using hex, i, le_refl i, rfl, fun k hk1 hk2 => by omega⟩

/-- Claim C2: on the concrete directory holding `report.log` and
`report.txt`, renaming old=`log` new=`txt` produces `report_1.txt`;
and in general, whenever the computed target exists, the used target is
`stem_<j>suffix` for the first index `j ≥ 1` whose candidate does not
exist at rename time, while a non-existing computed target is used
unchanged. -/
theorem C2_collision :
    (renameFiles (ls "log") (ls "txt") false 5 [ls "report.log", ls "report.txt"] =
      some ([ls "report.txt", ls "report_1.txt"], 1)) ∧
    ∀ (ex : List Char → Bool) (fuel : Nat) (name res : List Char),
      resolveTarget ex fuel name = some res →
      ex res = false ∧
      (ex name = false → res = name) ∧
      (ex name = true → ∃ j, 1 ≤ j ∧
        res = candName (stemAndSuffix name).1 (stemAndSuffix name).2 j ∧
        ∀ k, 1 ≤ k → k < j →
          ex (candName (stemAndSuffix name).1 (stemAndSuffix name).2 k) = true) := by
  refine ⟨by decide, ?_⟩
  intro ex fuel name res h
  unfold resolveTarget at h
  by_cases hex : ex name = true
  · rw [if_pos hex] at h
    obtain ⟨hres, j, hj1, hj2, hall⟩ := findFree_spec ex _ _ fuel 1 res h
    refine ⟨hres, ?_, fun _ => ⟨j, hj1, hj2, hall⟩⟩
    intro hfalse
    exact absurd hex (by simp [hfalse])
  · rw [if_neg hex] at h
    simp only [Option.some.injEq] at h
    subst h
    exact ⟨by simpa using hex, fun _ => rfl, fun htrue => absurd htrue hex⟩

/-- Witness for C2: resolving the busy target `report.txt` against a
directory where only `report.txt` exists yields a name free in that
directory. -/
theorem C2_collision_witness :
    (fun s => s == ls "report.txt") (ls "report_1.txt") = false :=
  (C2_collision.2 (fun s => s == ls "report.txt") 5 (ls "report.txt")
    (ls "report_1.txt") (by decide)).1

/-! ## Claim C3 -/

/-- Dry-run invariant of the renamer loop: the directory is never
changed and every existing, matching name in the remaining snapshot is
counted. -/
theorem renameLoop_dry (oldExt newExt : List Char) (fuel : Nat) (fs : List (List Char)) :
    ∀ (ns : List (List Char)) (count : Nat) (fs2 : List (List Char)) (n : Nat),
      renameLoop oldExt newExt true fuel ns fs count = some (fs2, n) →
      fs2 = fs ∧
      n = count + (ns.filter (fun x => fs.contains x && matchesOld oldExt x)).length := by
  intro ns
  induction ns with
  | nil =>
    intro count fs2 n h
    simp only [renameLoop, Option.some.injEq, Prod.mk.injEq] at h
    exact ⟨h.1.symm, by simp [← h.2]⟩
  | cons nm ns ih =>
    intro count fs2 n h
    simp only [renameLoop] at h
    cases hstep : renameStep oldExt newExt true fuel fs count nm with
    | none => rw [hstep] at h; simp at h
    | some st =>
      rw [hstep] at h
      simp only at h
      unfold renameStep at hstep
      by_cases hcon : fs.contains nm = false
      · rw [if_pos hcon] at hstep
        simp only [Option.some.injEq] at hstep
        subst hstep
        obtain ⟨h1, h2⟩ := ih count fs2 n h
        refine ⟨h1, ?_⟩
        rw [h2]
        have hpred : ¬ (fs.contains nm && matchesOld oldExt nm) = true := by
          rw [hcon]; simp
        simp only [List.filter_cons]
        rw [if_neg hpred]
      · rw [if_neg hcon] at hstep
        cases hm : matchName oldExt nm with
        | none =>
          rw [hm] at hstep
          simp only [Option.some.injEq] at hstep
          subst hstep
          obtain ⟨h1, h2⟩ := ih count fs2 n h
          refine ⟨h1, ?_⟩
          rw [h2]
          have hpred : ¬ (fs.contains nm && matchesOld oldExt nm) = true := by
            have : matchesOld oldExt nm = false := by rw [matchesOld, hm]; rfl
            rw [this]; simp
          simp only [List.filter_cons]
          rw [if_neg hpred]
        | some r =>
          rw [hm] at hstep
          simp only at hstep
          cases hrt : resolveTarget (fun s => fs.contains s) fuel (newName r.1 r.2 newExt) with
          | none => rw [hrt] at hstep; simp at hstep
          | some target =>
            rw [hrt] at hstep
            simp only [if_pos, Option.some.injEq] at hstep
            subst hstep
            obtain ⟨h1, h2⟩ := ih (count + 1) fs2 n h
            refine ⟨h1, ?_⟩
            rw [h2]
            have hcont : fs.contains nm = true := by
              cases hcc : fs.contains nm
              · exact absurd hcc hcon
              · rfl
            have hmo : matchesOld oldExt nm = true := by rw [matchesOld, hm]; rfl
            have hpred : (fs.contains nm && matchesOld oldExt nm) = true := by
              rw [hcont, hmo]; rfl
            simp only [List.filter_cons]
            rw [if_pos hpred, List.length_cons]
            omega

/-- Claim C3: a dry run mutates nothing — the directory after the run
equals the directory before — and counts exactly the matching files. -/
theorem C3_dry_run (oldExt newExt : List Char) (fuel : Nat)
    (fs fs2 : List (List Char)) (n : Nat)
    (h : renameFiles oldExt newExt true fuel fs = some (fs2, n)) :
    fs2 = fs ∧ n = fs.countP (matchesOld (lstripDots oldExt)) := by
  unfold renameFiles at h
  obtain ⟨h1, h2⟩ :=
    renameLoop_dry (lstripDots oldExt) (lstripDots newExt) fuel fs (sortNames fs) 0 fs2 n h
  refine ⟨h1, ?_⟩
  rw [h2]
  have hperm : (sortNames fs).Perm fs := List.perm_insertionSort _ fs
  have hcongr : (sortNames fs).filter
      (fun x => fs.contains x && matchesOld (lstripDots oldExt) x) =
      (sortNames fs).filter (matchesOld (lstripDots oldExt)) := by
    refine List.filter_congr ?_
    intro x hx
    have hmem : x ∈ fs := hperm.mem_iff.mp hx
    have hc : fs.contains x = true := List.elem_eq_true_of_mem hmem
    show (fs.contains x && matchesOld (lstripDots oldExt) x) = matchesOld (lstripDots oldExt) x
    rw [hc, Bool.true_and]
  rw [hcongr]
  rw [← List.countP_eq_length_filter]
  rw [hperm.countP_eq]
  simp

/-- Witness for C3 at a concrete two-file directory with one match. -/
theorem C3_dry_run_witness :
    [ls "a.log", ls "b.txt"] = [ls "a.log", ls "b.txt"] ∧
    (1 : Nat) = List.countP (matchesOld (lstripDots (ls "log"))) [ls "a.log", ls "b.txt"] :=
  C3_dry_run (ls "log") (ls "txt") 3 [ls "a.log", ls "b.txt"]
    [ls "a.log", ls "b.txt"] 1 (by decide)

/-! ## Lemmas: the combiner under no write failure -/

/-- A write call that is not scheduled to raise appends its text. -/
theorem writeCall_nofail (wfail : Nat → Bool) (hw : ∀ i, wfail i = false)
    (idx : Nat) (s out : List Char) :
    writeCall wfail idx s out = ⟨true, idx + 1, out ++ s⟩ := by
  unfold writeCall
  simp [hw idx]

/-- One loop iteration without write failures advances the call index,
appends the file chunk, and counts the file when its read succeeded. -/
theorem processOne_nofail (wfail : Nat → Bool) (hw : ∀ i, wfail i = false)
    (st : LoopSt) (f : SrcFile) :
    processOne wfail st f = ⟨st.idx + fileWrites f, st.out ++ fileChunk f,
      st.processed + (if f.content.isSome then 1 else 0),
      st.totalLines + fileLines f, st.raised⟩ := by
  unfold processOne
  cases hc : f.content with
  | none => simp [fileWrites, fileLines, fileChunk, hc]
  | some c =>
    simp only [writeCall_nofail wfail hw]
    by_cases hp : (padOf c).isEmpty = true
    · simp [hp, fileWrites, fileLines, fileChunk, hc,
        List.append_assoc, Nat.add_assoc]
      have : padOf c = [] := by
        cases hpc : padOf c
        · rfl
        · rw [hpc] at hp; cases hp
      simp [this]
    · simp [hp, fileWrites, fileLines, fileChunk, hc,
        List.append_assoc, Nat.add_assoc]

/-- The combiner loop without write failures appends all chunks and
accumulates the counts. -/
theorem combineLoop_nofail (wfail : Nat → Bool) (hw : ∀ i, wfail i = false) :
    ∀ (l : List SrcFile) (st : LoopSt),
      combineLoop wfail l st = ⟨st.idx + writeCount l, st.out ++ chunksOf l,
        st.processed + okCount l, st.totalLines + linesSum l, st.raised⟩ := by
  intro l
  induction l with
  | nil =>
    intro st
    simp [combineLoop, writeCount, chunksOf, okCount, linesSum]
  | cons f rest ih =>
    intro st
    simp only [combineLoop]
    rw [processOne_nofail wfail hw, ih]
    cases hc : f.content with
    | none =>
      simp [writeCount, chunksOf, okCount, linesSum, fileWrites, fileLines, fileChunk,
        hc, List.filter_cons, List.append_assoc, Nat.add_assoc]
    | some c =>
      simp [writeCount, chunksOf, okCount, linesSum, fileWrites, fileLines, fileChunk,
        hc, List.filter_cons, List.append_assoc, Nat.add_assoc]
      omega

/-- Sorting is a permutation of the input. -/
theorem sortFiles_perm (sbd : Bool) (l : List SrcFile) : (sortFiles sbd l).Perm l := by
  unfold sortFiles
  split <;> exact List.perm_insertionSort _ _

/-- A successful-path run of the combiner: valid directory, output
opens, no write raises.  The outcome is the header, all chunks in
sorted order, and the footer of the final counts. -/
theorem combineFiles_nofail (env : CombineEnv) (sbd : Bool) (files0 : List SrcFile)
    (hd : env.dirExists = true) (hi : env.isDir = true) (ho : env.openFail = false)
    (hw : ∀ i, env.wfail i = false) (hne : files0 ≠ []) :
    combineFiles env sbd files0 =
      ⟨okCount (sortFiles sbd files0), linesSum (sortFiles sbd files0), true,
        headerBlock env.nowStr env.srcDirStr env.encStr (sortFiles sbd files0).length sbd ++
          chunksOf (sortFiles sbd files0) ++
          footerBlock (okCount (sortFiles sbd files0)) (linesSum (sortFiles sbd files0)), 0⟩ := by
  have hne2 : sortFiles sbd files0 ≠ [] := by
    intro e
    apply hne
    have hlen := congrArg List.length e
    rw [(sortFiles_perm sbd files0).length_eq] at hlen
    simpa using hlen
  have hemp : (sortFiles sbd files0).isEmpty = false := by
    cases hse : sortFiles sbd files0
    · exact absurd hse hne2
    · rfl
  unfold combineFiles combineOpened combineFinish
  simp [hd, hi, ho, hemp, writeCall_nofail _ hw, combineLoop_nofail _ hw, List.append_assoc]


/-- Successful and failing reads partition the file list. -/
theorem okCount_add_errCount (l : List SrcFile) : okCount l + errCount l = l.length := by
  induction l with
  | nil => simp [okCount, errCount]
  | cons f rest ih =>
    unfold okCount errCount at ih ⊢
    cases hc : f.content with
    | none =>
      simp [List.filter_cons, hc]
      omega
    | some c =>
      simp [List.filter_cons, hc]
      omega

/-- Sorting does not change the number of readable files. -/
theorem okCount_sortFiles (sbd : Bool) (l : List SrcFile) :
    okCount (sortFiles sbd l) = okCount l := by
  unfold okCount
  rw [← List.countP_eq_length_filter, ← List.countP_eq_length_filter,
    (sortFiles_perm sbd l).countP_eq]

/-- A list always ends with its own appended suffix. -/
theorem endsWith_append (a b : List Char) : endsWith (a ++ b) b = true := by
  unfold endsWith
  rw [List.length_append, Nat.add_sub_cancel, List.drop_left]
  exact beq_self_eq_true b

/-- A nonempty directory stays nonempty after sorting. -/
theorem sortFiles_isEmpty_false (sbd : Bool) (files0 : List SrcFile) (hne : files0 ≠ []) :
    (sortFiles sbd files0).isEmpty = false := by
  have hne2 : sortFiles sbd files0 ≠ [] := by
    intro e
    apply hne
    have hlen := congrArg List.length e
    rw [(sortFiles_perm sbd files0).length_eq] at hlen
    simpa using hlen
  cases hse : sortFiles sbd files0
  · exact absurd hse hne2
  · rfl

/-! ## Claim C4 -/

/-- Claim C4: for a valid directory with `N` matched files and no
output-write failure, the reported files-processed count equals `N`
minus the number of files whose per-file read raised; each such failure
skips only its own file and the run still completes successfully. -/
theorem C4_processed_count (env : CombineEnv) (sbd : Bool) (files0 : List SrcFile)
    (hd : env.dirExists = true) (hi : env.isDir = true) (ho : env.openFail = false)
    (hw : ∀ i, env.wfail i = false) (hne : files0 ≠ []) :
    (combineFiles env sbd files0).processed = files0.length - errCount files0 ∧
    (combineFiles env sbd files0).success = true := by
  rw [combineFiles_nofail env sbd files0 hd hi ho hw hne]
  refine ⟨?_, rfl⟩
  show okCount (sortFiles sbd files0) = files0.length - errCount files0
  rw [okCount_sortFiles]
  have h2 := okCount_add_errCount files0
  omega

/-- Witness for C4: three files, one failing read, two processed. -/
theorem C4_processed_count_witness :
    (combineFiles sampleEnv true [sampleA, sampleBad, sampleB]).processed =
      [sampleA, sampleBad, sampleB].length - errCount [sampleA, sampleBad, sampleB] ∧
    (combineFiles sampleEnv true [sampleA, sampleBad, sampleB]).success = true :=
  C4_processed_count sampleEnv true [sampleA, sampleBad, sampleB] rfl rfl rfl
    (fun _ => rfl) (by simp)

/-! ## Claim C5 -/

/-- The footer stage emits the footer of the final counts whenever it
succeeds. -/
theorem combineFinish_footer (wfail : Nat → Bool) (st : LoopSt)
    (hs : (combineFinish wfail st).success = true) :
    endsWith (combineFinish wfail st).output
      (footerBlock (combineFinish wfail st).processed
        (combineFinish wfail st).totalLines) = true := by
  unfold combineFinish at hs ⊢
  split at hs
  next h1 => simp at hs
  next h1 =>
    rw [if_neg h1]
    have hwf : wfail st.idx = false := by
      cases hwv : wfail st.idx
      · rfl
      · exfalso
        apply h1
        unfold writeCall
        rw [hwv]
        rfl
    simp [writeCall, hwf, endsWith_append]

/-- The opened-output phase ends in the footer of the final counts
whenever it reports success. -/
theorem combineOpened_footer (wfail : Nat → Bool) (hdr : List Char) (files : List SrcFile)
    (hs : (combineOpened wfail hdr files).success = true) :
    endsWith (combineOpened wfail hdr files).output
      (footerBlock (combineOpened wfail hdr files).processed
        (combineOpened wfail hdr files).totalLines) = true := by
  unfold combineOpened at hs ⊢
  split at hs
  next h1 => simp at hs
  next h1 =>
    rw [if_neg h1]
    exact combineFinish_footer _ _ hs

/-- Claim C5 as stated is false: a run whose footer write raises
returns nonzero partial counts, but its written output does not end
with the footer of those counts. -/
theorem C5_counterexample :
    (combineFiles envFailFooter true [sampleA]).success = false ∧
    (combineFiles envFailFooter true [sampleA]).processed = 1 ∧
    (combineFiles envFailFooter true [sampleA]).totalLines = 1 ∧
    endsWith (combineFiles envFailFooter true [sampleA]).output
      (footerBlock (combineFiles envFailFooter true [sampleA]).processed
        (combineFiles envFailFooter true [sampleA]).totalLines) = false := by decide

/-- Claim C5 (amended): every run that returns `success = true` writes
an output ending with a footer block whose files-processed and
total-lines values equal the values returned to the caller. -/
theorem C5_footer (env : CombineEnv) (sbd : Bool) (files0 : List SrcFile)
    (hs : (combineFiles env sbd files0).success = true) :
    endsWith (combineFiles env sbd files0).output
      (footerBlock (combineFiles env sbd files0).processed
        (combineFiles env sbd files0).totalLines) = true := by
  unfold combineFiles at hs ⊢
  split at hs
  next h1 => simp at hs
  next h1 =>
    rw [if_neg h1]
    split at hs
    next h2 => simp at hs
    next h2 =>
      rw [if_neg h2]
      split at hs
      next h3 => simp at hs
      next h3 =>
        rw [if_neg h3]
        split at hs
        next h4 => simp at hs
        next h4 =>
          rw [if_neg h4]
          exact combineOpened_footer _ _ _ hs

/-- Witness for C5 on a concrete successful run. -/
theorem C5_footer_witness :
    endsWith (combineFiles sampleEnv true [sampleA, sampleB]).output
      (footerBlock (combineFiles sampleEnv true [sampleA, sampleB]).processed
        (combineFiles sampleEnv true [sampleA, sampleB]).totalLines) = true :=
  C5_footer sampleEnv true [sampleA, sampleB] (by decide)

/-! ## Claim C6 -/

/-- Claim C6 as stated is false: a write error raised while writing a
per-file block is caught by the per-file handler, so the run does not
abort.  In this concrete run the first separator write raises (one
caught raise is recorded), yet the second file is still processed, the
function returns `success = true`, and the CLI exits 0. -/
theorem C6_counterexample :
    (combineFiles envFailSep true [sampleA, sampleB]).raised = 1 ∧
    (combineFiles envFailSep true [sampleA, sampleB]).success = true ∧
    (combineFiles envFailSep true [sampleA, sampleB]).processed = 1 ∧
    mainExit (combineFiles envFailSep true [sampleA, sampleB]) = 0 := by decide

/-- Claim C6 (amended): an error raised while opening the output file,
or by the uncaught header write, aborts the run before any file with
zero counts, `success = false` and exit code 1; after a successful
header write the run is exactly the loop followed by the footer stage;
and a raise of the uncaught footer write returns the counts the loop
accumulated, with `success = false` and exit code 1.  Only write errors
inside a per-file block are caught and skip just that file. -/
theorem C6_abort (env : CombineEnv) (sbd : Bool) (files0 : List SrcFile)
    (hd : env.dirExists = true) (hi : env.isDir = true) (hne : files0 ≠ []) :
    (env.openFail = true →
      combineFiles env sbd files0 = ⟨0, 0, false, [], 0⟩ ∧
      mainExit (combineFiles env sbd files0) = 1) ∧
    (env.openFail = false → env.wfail 0 = true →
      combineFiles env sbd files0 = ⟨0, 0, false, [], 0⟩ ∧
      mainExit (combineFiles env sbd files0) = 1) ∧
    (env.openFail = false → env.wfail 0 = false →
      combineFiles env sbd files0 =
        combineFinish env.wfail
          (combineLoop env.wfail (sortFiles sbd files0)
            ⟨1, headerBlock env.nowStr env.srcDirStr env.encStr
                (sortFiles sbd files0).length sbd, 0, 0, 0⟩)) ∧
    (∀ st : LoopSt, env.wfail st.idx = true →
      combineFinish env.wfail st =
        ⟨st.processed, st.totalLines, false, st.out, st.raised⟩ ∧
      mainExit (combineFinish env.wfail st) = 1) := by
  have hemp := sortFiles_isEmpty_false sbd files0 hne
  refine ⟨?_, ?_, ?_, ?_⟩
  · intro ho
    have hcf : combineFiles env sbd files0 = ⟨0, 0, false, [], 0⟩ := by
      unfold combineFiles
      simp [hd, hi, hemp, ho]
    exact ⟨hcf, by rw [hcf]; rfl⟩
  · intro ho hw0
    have hcf : combineFiles env sbd files0 = ⟨0, 0, false, [], 0⟩ := by
      unfold combineFiles combineOpened
      simp [hd, hi, hemp, ho, writeCall, hw0]
    exact ⟨hcf, by rw [hcf]; rfl⟩
  · intro ho hw0
    unfold combineFiles combineOpened
    simp [hd, hi, hemp, ho, writeCall, hw0]
  · intro st hfail
    have hcf : combineFinish env.wfail st =
        ⟨st.processed, st.totalLines, false, st.out, st.raised⟩ := by
      unfold combineFinish
      simp [writeCall, hfail]
    exact ⟨hcf, by rw [hcf]; rfl⟩

/-- Witness for C6 on a run whose header write raises. -/
theorem C6_abort_witness :
    combineFiles envFailHeader true [sampleA] = ⟨0, 0, false, [], 0⟩ ∧
    mainExit (combineFiles envFailHeader true [sampleA]) = 1 :=
  (C6_abort envFailHeader true [sampleA] rfl rfl (by simp)).2.1 rfl rfl

/-! ## Claim C7 -/

/-- Claim C7: a missing directory, a non-directory source, or an empty
match list each leave the output unwritten and return zero counts with
`success = false`, making the CLI exit 1; and the exit code is 0
exactly on success. -/
theorem C7_validation (env : CombineEnv) (sbd : Bool) (files0 : List SrcFile) :
    ((env.dirExists = false ∨ env.isDir = false ∨ files0 = []) →
      combineFiles env sbd files0 = ⟨0, 0, false, [], 0⟩ ∧
      mainExit (combineFiles env sbd files0) = 1) ∧
    (mainExit (combineFiles env sbd files0) = 0 ↔
      (combineFiles env sbd files0).success = true) := by
  constructor
  · intro h
    have hcf : combineFiles env sbd files0 = ⟨0, 0, false, [], 0⟩ := by
      rcases h with h | h | h
      · simp [combineFiles, h]
      · by_cases hdd : env.dirExists = false <;> simp [combineFiles, hdd, h]
      · subst h
        by_cases hdd : env.dirExists = false <;>
          by_cases hii : env.isDir = false <;>
            simp [combineFiles, hdd, hii, sortFiles, List.insertionSort]
    exact ⟨hcf, by rw [hcf]; rfl⟩
  · cases hs : (combineFiles env sbd files0).success <;> simp [mainExit, hs]

/-- Witness for C7 on a run whose source directory does not exist. -/
theorem C7_validation_witness :
    combineFiles envNoDir true [sampleA] = ⟨0, 0, false, [], 0⟩ ∧
    mainExit (combineFiles envNoDir true [sampleA]) = 1 :=
  (C7_validation envNoDir true [sampleA]).1 (Or.inl rfl)

/-! ## Claim C8 -/

/-- Strict string order is irreflexive. -/
theorem lexLt_irrefl : ∀ a : List Char, lexLt a a = false := by
  intro a
  induction a with
  | nil => rfl
  | cons x as ih =>
    simp only [lexLt]
    rw [if_neg (lt_irrefl x), if_neg (lt_irrefl x)]
    exact ih

/-- Strict string order is asymmetric. -/
theorem lexLt_asymm : ∀ a b : List Char, lexLt a b = true → lexLt b a = false := by
  intro a
  induction a with
  | nil =>
    intro b hab
    cases b with
    | nil => simp [lexLt] at hab
    | cons y bs => rfl
  | cons x as ih =>
    intro b hab
    cases b with
    | nil => simp [lexLt] at hab
    | cons y bs =>
      simp only [lexLt] at hab ⊢
      rcases lt_trichotomy x y with h1 | h1 | h1
      · rw [if_neg (asymm h1), if_pos h1]
      · subst h1
        rw [if_neg (lt_irrefl x), if_neg (lt_irrefl x)] at hab ⊢
        exact ih bs hab
      · rw [if_neg (asymm h1), if_pos h1] at hab
        exact absurd hab (by simp)

/-- Strict string order is transitive. -/
theorem lexLt_trans : ∀ a b c : List Char,
    lexLt a b = true → lexLt b c = true → lexLt a c = true := by
  intro a
  induction a with
  | nil =>
    intro b c hab hbc
    cases b with
    | nil => simp [lexLt] at hab
    | cons y bs =>
      cases c with
      | nil => simp [lexLt] at hbc
      | cons z cs => rfl
  | cons x as ih =>
    intro b c hab hbc
    cases b with
    | nil => simp [lexLt] at hab
    | cons y bs =>
      cases c with
      | nil => simp [lexLt] at hbc
      | cons z cs =>
        simp only [lexLt] at hab hbc ⊢
        rcases lt_trichotomy x y with h1 | h1 | h1
        · rcases lt_trichotomy y z with h2 | h2 | h2
          · rw [if_pos (lt_trans h1 h2)]
          · subst h2; rw [if_pos h1]
          · rw [if_neg (asymm h2), if_pos h2] at hbc
            exact absurd hbc (by simp)
        · subst h1
          rw [if_neg (lt_irrefl x), if_neg (lt_irrefl x)] at hab
          rcases lt_trichotomy x z with h2 | h2 | h2
          · rw [if_pos h2]
          · subst h2
            rw [if_neg (lt_irrefl x), if_neg (lt_irrefl x)] at hbc ⊢
            exact ih bs cs hab hbc
          · rw [if_neg (asymm h2), if_pos h2] at hbc
            exact absurd hbc (by simp)
        · rw [if_neg (asymm h1), if_pos h1] at hab
          exact absurd hab (by simp)

/-- Strict string order is trichotomous. -/
theorem lexLt_trichotomy : ∀ a b : List Char,
    lexLt a b = true ∨ a = b ∨ lexLt b a = true := by
  intro a
  induction a with
  | nil =>
    intro b
    cases b with
    | nil => right; left; rfl
    | cons y bs => left; rfl
  | cons x as ih =>
    intro b
    cases b with
    | nil => right; right; rfl
    | cons y bs =>
      rcases lt_trichotomy x y with h1 | h1 | h1
      · left; simp [lexLt, h1]
      · subst h1
        rcases ih bs with h2 | h2 | h2
        · left; simp [lexLt, lt_irrefl, h2]
        · right; left; rw [h2]
        · right; right; simp [lexLt, lt_irrefl, h2]
      · right; right; simp [lexLt, h1]

/-- The parts-tuple order on paths is total. -/
theorem partsLe_total : ∀ a b : List (List Char),
    partsLe a b = true ∨ partsLe b a = true := by
  intro a
  induction a with
  | nil => intro b; left; rfl
  | cons x as ih =>
    intro b
    cases b with
    | nil => right; rfl
    | cons y bs =>
      by_cases hxy : lexLt x y = true
      · left; simp [partsLe, hxy]
      · by_cases hyx : lexLt y x = true
        · right; simp [partsLe, hyx]
        · rcases ih bs with h | h
          · left; simp [partsLe, hxy, hyx, h]
          · right; simp [partsLe, hyx, hxy, h]

/-- The parts-tuple order on paths is transitive. -/
theorem partsLe_trans : ∀ a b c : List (List Char),
    partsLe a b = true → partsLe b c = true → partsLe a c = true := by
  intro a
  induction a with
  | nil => intro b c _ _; rfl
  | cons x as ih =>
    intro b c hab hbc
    cases b with
    | nil => simp [partsLe] at hab
    | cons y bs =>
      cases c with
      | nil => simp [partsLe] at hbc
      | cons z cs =>
        simp only [partsLe] at hab hbc ⊢
        rcases lexLt_trichotomy x y with h1 | h1 | h1
        · rcases lexLt_trichotomy y z with h2 | h2 | h2
          · rw [if_pos (lexLt_trans x y z h1 h2)]
          · subst h2; rw [if_pos h1]
          · rw [if_neg (by simp [lexLt_asymm z y h2]), if_pos h2] at hbc
            exact absurd hbc (by simp)
        · subst h1
          rw [if_neg (by simp [lexLt_irrefl x]), if_neg (by simp [lexLt_irrefl x])] at hab
          rcases lexLt_trichotomy x z with h2 | h2 | h2
          · rw [if_pos h2]
          · subst h2
            rw [if_neg (by simp [lexLt_irrefl x]),
              if_neg (by simp [lexLt_irrefl x])] at hbc ⊢
            exact ih bs cs hab hbc
          · rw [if_neg (by simp [lexLt_asymm z x h2]), if_pos h2] at hbc
            exact absurd hbc (by simp)
        · rw [if_neg (by simp [lexLt_asymm y x h1]), if_pos h1] at hab
          exact absurd hab (by simp)

/-- The lexicographic order on character lists is total. -/
theorem lexLe_total : ∀ a b : List Char, lexLe a b = true ∨ lexLe b a = true := by
  intro a
  induction a with
  | nil => intro b; left; rfl
  | cons x as ih =>
    intro b
    cases b with
    | nil => right; rfl
    | cons y bs =>
      by_cases hxy : x < y
      · left; simp [lexLe, hxy]
      · by_cases hyx : y < x
        · right; simp [lexLe, hyx]
        · rcases ih bs with h | h
          · left; simp [lexLe, hxy, hyx, h]
          · right; simp [lexLe, hyx, hxy, h]

/-- The lexicographic order on character lists is transitive. -/
theorem lexLe_trans : ∀ a b c : List Char,
    lexLe a b = true → lexLe b c = true → lexLe a c = true := by
  intro a
  induction a with
  | nil => intro b c _ _; rfl
  | cons x as ih =>
    intro b c hab hbc
    cases b with
    | nil => simp [lexLe] at hab
    | cons y bs =>
      cases c with
      | nil => simp [lexLe] at hbc
      | cons z cs =>
        simp only [lexLe] at hab hbc ⊢
        rcases lt_trichotomy x y with h1 | h1 | h1
        · rcases lt_trichotomy y z with h2 | h2 | h2
          · rw [if_pos (lt_trans h1 h2)]
          · subst h2; rw [if_pos h1]
          · rw [if_neg (asymm h2), if_pos h2] at hbc
            exact absurd hbc (by simp)
        · subst h1
          rw [if_neg (lt_irrefl x), if_neg (lt_irrefl x)] at hab
          rcases lt_trichotomy x z with h2 | h2 | h2
          · rw [if_pos h2]
          · subst h2
            rw [if_neg (lt_irrefl x), if_neg (lt_irrefl x)] at hbc ⊢
            exact ih bs cs hab hbc
          · rw [if_neg (asymm h2), if_pos h2] at hbc
            exact absurd hbc (by simp)
        · rw [if_neg (asymm h1), if_pos h1] at hab
          exact absurd hab (by simp)

/-- Claim C8 as stated is false for name-sorted runs that reach into
subdirectories: the sort key is the file path, but the separator block
records the bare file name, so `a/z.txt` before `b/a.txt` puts block
name `z.txt` before block name `a.txt`, which is not lexicographic
name order. -/
theorem C8_counterexample :
    blockFiles false [pathZ, pathA] = [pathZ, pathA] ∧
    (blockFiles false [pathZ, pathA]).map SrcFile.name = [ls "z.txt", ls "a.txt"] ∧
    lexLe (ls "z.txt") (ls "a.txt") = false := by decide

/-- Claim C8 (amended): in a run with no write failures the output is
the header, the per-file chunks in sorted order, and the footer; with
name sort the blocks appear in non-decreasing Python `Path` order of
the combined file paths — componentwise over the slash-separated
parts, each part by string order — which equals lexicographic order of
the displayed names when no subdirectories are involved; with
creation-time sort the block creation timestamps are non-decreasing. -/
theorem C8_order (env : CombineEnv) (sbd : Bool) (files0 : List SrcFile)
    (hd : env.dirExists = true) (hi : env.isDir = true) (ho : env.openFail = false)
    (hw : ∀ i, env.wfail i = false) (hne : files0 ≠ []) :
    (combineFiles env sbd files0).output =
      headerBlock env.nowStr env.srcDirStr env.encStr (sortFiles sbd files0).length sbd ++
        chunksOf (sortFiles sbd files0) ++
        footerBlock (okCount (sortFiles sbd files0)) (linesSum (sortFiles sbd files0)) ∧
    List.Pairwise byDate (blockFiles true files0) ∧
    List.Pairwise byName (blockFiles false files0) := by
  refine ⟨?_, ?_, ?_⟩
  · rw [combineFiles_nofail env sbd files0 hd hi ho hw hne]
  · haveI : IsTotal SrcFile byDate := ⟨fun a b => Nat.le_total a.ctime b.ctime⟩
    haveI : IsTrans SrcFile byDate := ⟨fun a b c h1 h2 => Nat.le_trans h1 h2⟩
    have hs : List.Sorted byDate (List.insertionSort byDate files0) :=
      List.sorted_insertionSort byDate files0
    unfold blockFiles
    exact List.Pairwise.filter _ hs
  · haveI : IsTotal SrcFile byName :=
      ⟨fun a b => partsLe_total (splitPath a.relpath) (splitPath b.relpath)⟩
    haveI : IsTrans SrcFile byName :=
      ⟨fun a b c h1 h2 =>
        partsLe_trans (splitPath a.relpath) (splitPath b.relpath) (splitPath c.relpath) h1 h2⟩
    have hs : List.Sorted byName (List.insertionSort byName files0) :=
      List.sorted_insertionSort byName files0
    unfold blockFiles
    exact List.Pairwise.filter _ hs

/-- Witness for C8 on a concrete creation-time-sorted run. -/
theorem C8_order_witness :
    List.Pairwise byDate (blockFiles true [sampleA, sampleB]) :=
  (C8_order sampleEnv true [sampleA, sampleB] rfl rfl rfl (fun _ => rfl) (by simp)).2.1

/-! ## Claim C9 -/

/-- Content already ending in a newline receives no pad. -/
theorem padOf_of_newline (c : List Char) (hend : c.getLast? = some '\n') : padOf c = [] := by
  unfold padOf
  simp [hend]

/-- Nonempty content, once padded, ends with a newline. -/
theorem padded_last (c : List Char) (hcne : c ≠ []) :
    (c ++ padOf c).getLast? = some '\n' := by
  by_cases hend : c.getLast? = some '\n'
  · rw [padOf_of_newline c hend, List.append_nil]
    exact hend
  · have hp : padOf c = ['\n'] := by
      unfold padOf
      have h1 : c.isEmpty = false := by
        cases hcc : c
        · exact absurd hcc hcne
        · rfl
      simp [h1, hend]
    rw [hp]
    exact List.getLast?_concat c

/-- Anything followed by the double-newline that closes a separator
block ends with a newline. -/
theorem endsWithNl_append (x : List Char) : (x ++ ls "\n\n").getLast? = some '\n' := by
  have h : x ++ ls "\n\n" = (x ++ ['\n']) ++ ['\n'] := by simp [ls]
  rw [h]
  exact List.getLast?_concat _

/-- Claim C9: in a run with no write failures, each successfully read
file contributes its raw decoded content immediately after its
separator block; nonempty content as written always ends with a
newline (one is appended only when missing), and the full chunk ends
with a newline even for empty content, so the next block starts on a
fresh line. -/
theorem C9_content (env : CombineEnv) (sbd : Bool) (files0 : List SrcFile)
    (hd : env.dirExists = true) (hi : env.isDir = true) (ho : env.openFail = false)
    (hw : ∀ i, env.wfail i = false) (hne : files0 ≠ [])
    (f : SrcFile) (c : List Char) (hf : f ∈ sortFiles sbd files0) (hc : f.content = some c) :
    (∃ pre post, (combineFiles env sbd files0).output =
        pre ++ (sepBlock f (countNl c) ++ (c ++ padOf c)) ++ post) ∧
    (c ≠ [] → (c ++ padOf c).getLast? = some '\n') ∧
    (c.getLast? = some '\n' → padOf c = []) ∧
    (sepBlock f (countNl c) ++ (c ++ padOf c)).getLast? = some '\n' := by
  refine ⟨?_, fun hcne => padded_last c hcne, fun hend => padOf_of_newline c hend, ?_⟩
  · rw [combineFiles_nofail env sbd files0 hd hi ho hw hne]
    obtain ⟨s, t, hst⟩ := List.append_of_mem hf
    refine ⟨headerBlock env.nowStr env.srcDirStr env.encStr (sortFiles sbd files0).length sbd ++
      chunksOf s,
      chunksOf t ++ footerBlock (okCount (sortFiles sbd files0)) (linesSum (sortFiles sbd files0)),
      ?_⟩
    have hsplit : chunksOf (s ++ f :: t) = chunksOf s ++ (fileChunk f ++ chunksOf t) := by
      unfold chunksOf
      rw [List.map_append, List.map_cons, List.flatten_append, List.flatten_cons]
    have hchunk : fileChunk f = sepBlock f (countNl c) ++ (c ++ padOf c) := by
      simp only [fileChunk, hc, List.append_assoc]
    show headerBlock env.nowStr env.srcDirStr env.encStr (sortFiles sbd files0).length sbd ++
        chunksOf (sortFiles sbd files0) ++
        footerBlock (okCount (sortFiles sbd files0)) (linesSum (sortFiles sbd files0)) = _
    rw [hst, hsplit, hchunk]
    simp [List.append_assoc]
  · by_cases hcne : c = []
    · subst hcne
      have hpad : padOf ([] : List Char) = [] := rfl
      rw [hpad, List.append_nil, List.append_nil]
      unfold sepBlock
      exact endsWithNl_append _
    · rw [List.getLast?_append_of_ne_nil _ (by
        intro he
        exact hcne (by
          cases hcc : c
          · rfl
          · rw [hcc] at he; simp at he))]
      exact padded_last c hcne

/-- Witness for C9 on a concrete run and its first processed file. -/
theorem C9_content_witness :
    (∃ pre post, (combineFiles sampleEnv true [sampleA, sampleB]).output =
        pre ++ (sepBlock sampleB (countNl (ls "y")) ++ (ls "y" ++ padOf (ls "y"))) ++ post) ∧
    (ls "y" ≠ [] → (ls "y" ++ padOf (ls "y")).getLast? = some '\n') ∧
    ((ls "y").getLast? = some '\n' → padOf (ls "y") = []) ∧
    (sepBlock sampleB (countNl (ls "y")) ++ (ls "y" ++ padOf (ls "y"))).getLast? = some '\n' :=
  C9_content sampleEnv true [sampleA, sampleB] rfl rfl rfl (fun _ => rfl) (by simp)
    sampleB (ls "y") (by decide) rfl

end WorkScripts
